import Mathlib

/-!
NEXEN multi-agent research orchestration — verification of the
specification: a shallow embedding of the repository's orchestration core
and the theorems settling the specification's claims about it.

Embedded from the repository source:
* `MemoryRetriever.retrieve_context` (src/doc/Memory_System.md, §5.1);
* `ArchivistAgent.generate_insights` (src/doc/Memory_System.md, §6.2);
* the SSE line-dispatch loop of `researchApi.executeResearch`
  (src/web/frontend/lib/api.ts);
* `handleDeleteProfile` (src/web/frontend/app/(main)/ai-teams/page.tsx).

The Decomposer and the Orchestrator have no implementation in the given
source (the repository ships design documents for them); the definitions
for those components are modelled from the specification and say so in
their doc comments.
-/

/- ## Memory Store (src/doc/Memory_System.md §5.1) -/

/-- Approximate token accounting, proportional to content length
(`self.count_tokens` in Memory_System.md). -/
def count_tokens (s : String) : Nat := s.length

/-- The per-session memory state seen by the retriever: L2 insight file
contents, L1 digests keyed by owning agent, and L0 raw file paths. -/
structure MemoryStore where
  insightFiles : List String
  digests : List (String × String)
  rawFiles : List String
deriving DecidableEq, Repr

/-- Embeds `self.load_insights([...])` — loads the L2 insight files as one
blob. -/
def load_insights (st : MemoryStore) : String :=
  String.join st.insightFiles

/-- The pluggable, deterministic ranking functions of the retriever:
`score` ranks a digest's relevance to a query, `rawq` decides whether a raw
file path matches the query (the design fixes only determinism, not the
algorithm). -/
structure Ranking where
  score : String → String → Nat
  rawq : String → String → Bool

/-- Embeds `self.search_digests(query, exclude_agent=agent, top_k=3)` — the ranked
digests relevant to the query, the requesting agent's own digest excluded,
at most three. -/
def search_digests (score : String → String → Nat) (st : MemoryStore)
    (query agent : String) : List String :=
  (((st.digests.filter (fun p => p.1 ≠ agent)).map Prod.snd).insertionSort
    (fun a b => score query b ≤ score query a)).take 3

/-- Embeds `self.search_raw(query, limit=3)` — at most three matching raw file
paths (paths only, never content). -/
def search_raw (rk : Ranking) (st : MemoryStore) (query : String) : List String :=
  (st.rawFiles.filter (rk.rawq query)).take 3

/-- One entry of the retrieved bundle, tagged as in the `results` list of
`retrieve_context` (`"L2_insights"`, `"L1_digest"`, `"L0_refs"`). -/
inductive MemEntry where
  | insights (content : String)
  | digest (content : String)
  | refs (paths : List String)
deriving DecidableEq, Repr

/-- The digest loop of `retrieve_context`: for each ranked digest, stop if
`token_budget < 1000`, otherwise append it and charge its token count.
Returns the appended digests and the remaining budget. -/
def addDigests : Int → List String → List String × Int
  | budget, [] => ([], budget)
  | budget, d :: rest =>
    if budget < 1000 then ([], budget)
    else
      let out := addDigests (budget - count_tokens d) rest
      (d :: out.1, out.2)

/-- The value returned by `retrieve_context`. -/
structure RetrievedContext where
  results : List MemEntry
  token_count : Int
deriving DecidableEq, Repr

/-- Embeds `MemoryRetriever.retrieve_context(query, agent, max_tokens)`
(Memory_System.md §5.1): append the L2 insights blob unconditionally and
charge it against the budget; then ranked L1 digests while the remaining
budget is at least 1000; then, only if more than 500 budget remains, one
entry holding the matching L0 file paths. -/
def retrieve_context (rk : Ranking) (st : MemoryStore)
    (query agent : String) (max_tokens : Nat) : RetrievedContext :=
  let insights := load_insights st
  let budget0 : Int := (max_tokens : Int) - count_tokens insights
  let ds := search_digests rk.score st query agent
  let step := addDigests budget0 ds
  let base := MemEntry.insights insights :: step.1.map MemEntry.digest
  let results :=
    if step.2 > 500 then base ++ [MemEntry.refs (search_raw rk st query)]
    else base
  { results := results, token_count := (max_tokens : Int) - step.2 }

/-- The digest contents of a retrieved bundle, in bundle order. -/
def digestEntries (r : RetrievedContext) : List String :=
  r.results.filterMap fun e =>
    match e with
    | .digest s => some s
    | _ => none

/- ## Archivist (src/doc/Memory_System.md §6.2) -/

/-- Embeds `ArchivistAgent.generate_insights`: read all L1 digests, synthesize
them (`self.llm.synthesize`, abstracted as the deterministic function
`synth` per the design's capability-interface note), and write the result
into the L2 insight layer, replacing it. L0 and L1 are untouched. -/
def generate_insights (synth : List (String × String) → List String)
    (st : MemoryStore) : MemoryStore :=
  { st with insightFiles := synth st.digests }

/- ## SSE consumer (src/web/frontend/lib/api.ts, researchApi.executeResearch) -/

/-- A JSON value as produced by the browser's `JSON.parse`. -/
inductive Json where
  | null
  | bool (b : Bool)
  | num (n : Int)
  | str (s : String)
  | arr (xs : List Json)
  | obj (fields : List (String × Json))

/-- JavaScript truthiness of a JSON value. -/
def jsTruthy : Json → Bool
  | .null => false
  | .bool b => b
  | .num n => n ≠ 0
  | .str s => s ≠ ""
  | .arr _ => true
  | .obj _ => true

/-- The outcome of evaluating `data.error` in JavaScript: `none` when the
property access throws (`data` is `null`), `some none` when it yields
`undefined` (primitive receivers, or an object without the field), and
`some (some v)` when the field is present with value `v`. -/
def errorAccess : Json → Option (Option Json)
  | .null => none
  | .obj fields => some (fields.lookup ("error"))
  | _ => some none

/-- One callback invocation performed by the SSE loop: `onEvent(data)` or
`onError(data.error)`. -/
inductive SSECall where
  | event (data : Json)
  | err (e : Json)

/-- Truthiness of a possibly-`undefined` JavaScript value. -/
def truthyOpt : Option Json → Bool
  | none => false
  | some v => jsTruthy v

/-- The body of the per-line loop of `researchApi.executeResearch`
(api.ts): a line produces a callback only if it starts with `"data: "`;
the payload after the first six characters is fed to `JSON.parse`
(abstracted as the deterministic `parse`); the whole of the parse and the
`data.error` access sits inside one `try`/`catch` whose `catch` silently
skips the line; a truthy `error` field routes to `onError`, anything else
to `onEvent`. `line.startsWith('data: ')` is rendered as equality of the
six-character prefix, which is the same predicate. -/
def handleLine (parse : String → Option Json) (line : String) : Option SSECall :=
  if line.take 6 = "data: " then
    match parse (line.drop 6) with
    | none => none
    | some data =>
      match errorAccess data with
      | none => none
      | some none => some (.event data)
      | some (some v) => if jsTruthy v then some (.err v) else some (.event data)
  else none

/-- The loop of `researchApi.executeResearch` over the lines of the
response body, in stream order, collecting the callback invocations it
performs. -/
def processLines (parse : String → Option Json) (lines : List String) : List SSECall :=
  lines.filterMap (handleLine parse)

/- ## Agent profile deletion
(src/web/frontend/app/(main)/ai-teams/page.tsx, handleDeleteProfile) -/

/-- The slice of an Agent Profile that `handleDeleteProfile` touches. -/
structure AgentProfile where
  id : Nat
  display_name : String
  is_custom : Bool
deriving DecidableEq, Repr

/-- The slice of the AI-teams page state that `handleDeleteProfile`
touches. -/
structure TeamsState where
  profiles : List AgentProfile
  selectedProfile : Option AgentProfile
  error : Option String
deriving DecidableEq, Repr

/-- Embeds `handleDeleteProfile` (ai-teams/page.tsx): a non-custom profile is
rejected with the error `"Cannot delete default agents"` and nothing else
changes; otherwise the user's `confirm` dialog (`confirmed`) and the
backend call (`apiError`, `none` on success) gate the removal of the
profile from the list, deselecting it if it was selected. -/
def handleDeleteProfile (s : TeamsState) (p : AgentProfile)
    (confirmed : Bool) (apiError : Option String) : TeamsState :=
  if !p.is_custom then
    { s with error := some ("Cannot delete default agents") }
  else if !confirmed then s
  else
    match apiError with
    | some msg => { s with error := some msg }
    | none =>
      { s with
        profiles := s.profiles.filter (fun q => q.id ≠ p.id)
        selectedProfile :=
          match s.selectedProfile with
          | some sp => if sp.id = p.id then none else some sp
          | none => none }

/- ## Task Graph Builder (Decomposer) — modelled from the spec -/

/-- Modelled from the spec: the Decomposer (no implementation is present
in the source; spec §4.1) creates all tasks of a session atomically, each
task's dependencies referring to already-created tasks. A task graph is
the list of per-task dependency lists, task `i` depending on the tasks
whose indices appear in entry `i`. -/
def TaskGraph := List (List Nat)

/-- A task graph is well formed when every dependency of task `i` is an
earlier task. -/
def TaskGraph.WF (g : TaskGraph) : Prop :=
  ∀ i, ∀ j ∈ g.getD i [], j < i

/-- Modelled from the spec: the group of one task given the groups already
assigned to the earlier tasks — `0` for a task with no dependencies,
otherwise one more than the maximum group among its dependencies
(spec §4.1: group 0 holds the dependency-free tasks, group `k` the tasks
all of whose dependencies lie in groups `< k`). -/
def groupOf (acc : List Nat) (deps : List Nat) : Nat :=
  match deps with
  | [] => 0
  | _ => (deps.map (fun j => acc.getD j 0)).foldr max 0 + 1

/-- Modelled from the spec: `execution_group` assignment task by task in
creation order, `acc` holding the groups already assigned to the earlier
tasks. -/
def assignGroupsAux (acc : List Nat) : List (List Nat) → List Nat
  | [] => acc
  | deps :: rest => assignGroupsAux (acc ++ [groupOf acc deps]) rest

/-- Modelled from the spec: `execution_group` assignment for every task of
the graph, in creation order. -/
def assignGroups (g : TaskGraph) : List Nat :=
  assignGroupsAux [] g

/-- The dependency relation of a task graph: `depends g i j` when task `i`
lists task `j` as a dependency. -/
def depends (g : TaskGraph) (i j : Nat) : Prop :=
  j ∈ g.getD i []

/- ## Orchestrator barrier (spec §4.2/§5) — modelled from the spec -/

/-- Research task status (api.ts `ResearchTaskItem.status`). -/
inductive TaskStatus where
  | pending
  | in_progress
  | completed
  | failed
  | skipped
deriving DecidableEq, Repr

/-- A terminal task status. -/
def TaskStatus.isTerminal : TaskStatus → Bool
  | .completed => true
  | .failed => true
  | .skipped => true
  | _ => false

/-- Overwrite the status of every task of one group. -/
def setGroup (s : Nat → TaskStatus) (g : List Nat) (v : Nat → TaskStatus) :
    Nat → TaskStatus :=
  fun t => if t ∈ g then v t else s t

/-- Modelled from the spec: the Orchestrator's per-session execution trace
(spec §4.2/§5; no implementation is present in the source). Starting from
`s`, each group is dispatched as a whole (its tasks leave `pending`
together) and then runs to its terminal outcome before the next group is
touched — the inter-group barrier. The trace records the status map after
every step. -/
def runTrace (outcome : Nat → TaskStatus) :
    (Nat → TaskStatus) → List (List Nat) → List (Nat → TaskStatus)
  | s, [] => [s]
  | s, g :: rest =>
    let s1 := setGroup s g (fun _ => .in_progress)
    let s2 := setGroup s1 g outcome
    s :: s1 :: runTrace outcome s2 rest

/-- Pairwise disjointness of the execution groups (no task sits in two
groups). -/
def GroupsDisjoint (gs : List (List Nat)) : Prop :=
  gs.Pairwise fun a b => ∀ x ∈ a, x ∉ b

/- ## Orchestrator event stream (spec §4.2/§5) — modelled from the spec -/

/-- The lifecycle event types of api.ts `ResearchEvent`, task events
carrying the task id they concern. -/
inductive REvent where
  | session_started
  | decomposition_complete
  | group_started
  | task_started (t : Nat)
  | task_progress (t : Nat)
  | task_completed (t : Nat)
  | task_failed (t : Nat)
  | group_completed
  | synthesis_started
  | synthesis_complete
  | session_completed
deriving DecidableEq, Repr

/-- The terminal event of a task under a given outcome. -/
def terminalEvent (outcome : Nat → Bool) (t : Nat) : REvent :=
  if outcome t then .task_completed t else .task_failed t

/-- Modelled from the spec: the events one task contributes to the
session's stream — started, then its terminal event (`outcome t = true`
meaning the task completed). -/
def taskEvents (outcome : Nat → Bool) (t : Nat) : List REvent :=
  [.task_started t, terminalEvent outcome t]

/-- Modelled from the spec: the events of one execution group. Task
execution inside the group is concurrent; the Orchestrator serializes its
own emissions, and this model fixes one valid serialization. -/
def groupEvents (outcome : Nat → Bool) (g : List Nat) : List REvent :=
  .group_started :: (g.flatMap (taskEvents outcome) ++ [.group_completed])

/-- Modelled from the spec: the full ordered event stream the Orchestrator
produces for one session (spec §4.2; no implementation is present in the
source). Delivery to subscribers is this list in this order — the
Orchestrator is the sole producer and serializes its emissions. -/
def orchestratorEvents (groups : List (List Nat)) (outcome : Nat → Bool) :
    List REvent :=
  .session_started :: .decomposition_complete ::
    (groups.flatMap (groupEvents outcome) ++
      [.synthesis_started, .synthesis_complete, .session_completed])

/- ## Session run with partial failure (spec §4.2/§7) — modelled from the spec -/

/-- One task as seen by the session run: its id and its final outcome,
`some o` for a completed task with output `o`, `none` for a task whose
retries exhausted and which was marked failed. -/
structure TaskRun where
  id : Nat
  output : Option String
deriving DecidableEq, Repr

/-- Session terminal status. -/
inductive SessionStatus where
  | completed
  | failed
deriving DecidableEq, Repr

/-- The synthesis artifact: its text and the task ids of the outputs it
was built over. -/
structure Synthesis where
  text : String
  sources : List Nat
deriving DecidableEq, Repr

/-- The final state of a session run. -/
structure SessionResult where
  status : SessionStatus
  synthesis : Synthesis
  failedTasks : List Nat
deriving DecidableEq, Repr

/-- Modelled from the spec: the group loop's failure handling (spec §4.2:
"a task reaching `failed` does not abort the session; it is recorded and
the group proceeds with the remaining tasks"). Every task is processed; a
failure is recorded and processing continues. Returns the successful
`(id, output)` pairs and the failed ids, in task order. -/
def processTasks : List TaskRun → List (Nat × String) × List Nat
  | [] => ([], [])
  | t :: rest =>
    let out := processTasks rest
    match t.output with
    | some o => ((t.id, o) :: out.1, out.2)
    | none => (out.1, t.id :: out.2)

/-- Modelled from the spec: the synthesis pass over the successful
outputs (spec §4.2/§7: a session with partial failures still produces a
synthesis over whatever results exist, partial results preferred to
none). The report text opens with a fixed header, so it is never empty. -/
def synthesize (successes : List (Nat × String)) : Synthesis :=
  { text := "## Synthesis Report\n" ++
      String.join (successes.map fun p => "- [task] " ++ p.2 ++ "\n")
    sources := successes.map Prod.fst }

/-- Modelled from the spec: one full session run after decomposition
succeeded (spec §4.2/§7: only `DecompositionError` and unrecoverable
internal faults fail the session; task-level failures never unwind past
the group barrier). -/
def runSession (tasks : List TaskRun) : SessionResult :=
  let out := processTasks tasks
  { status := .completed
    synthesis := synthesize out.1
    failedTasks := out.2 }

/- ## Auxiliary definitions used by the theorems -/

/-- Total token count of a list of digest contents, as an integer. -/
def sumTokens (l : List String) : Int :=
  (l.map fun d => (count_tokens d : Int)).sum

/-- The top-level `error` field of a JSON value, `none` when the value is
not an object or lacks the field. Used to state the claim about the SSE
loop in the claim's own vocabulary. -/
def topError : Json → Option Json
  | .obj fields => fields.lookup ("error")
  | _ => none

/-- The per-line behavior of the SSE loop as the (amended) claim words
it: a non-data line produces no callback; a data line whose payload fails
to parse produces none; a payload parsing to JSON `null` produces none
(the `error`-field access throws inside the loop's `try`); a payload with
a truthy top-level `error` field produces exactly one `onError`; any
other successfully parsed payload produces exactly one `onEvent`. -/
def claimLineBehavior (parse : String → Option Json) (line : String) :
    Option SSECall :=
  if line.take 6 = "data: " then
    match parse (line.drop 6) with
    | none => none
    | some Json.null => none
    | some data =>
      match topError data with
      | some v => if jsTruthy v then some (.err v) else some (.event data)
      | none => some (.event data)
  else none

/-- Deterministic stand-in for the browser's `JSON.parse` on the payloads
exercised by the concrete inputs below. `JSON.parse "null"` succeeding
with the JSON null value is exactly the browser behavior. -/
def jsonParseModel : String → Option Json :=
  fun s => if s = "null" then some Json.null else none

/-- A trivial deterministic ranking, used for concrete retrievals. -/
def rkTrivial : Ranking :=
  { score := fun _ _ => 0, rawq := fun _ _ => true }

/-- A 600-character digest content, used for concrete retrievals. -/
def dBig : String := String.mk (List.replicate 600 'x')

/-- Concrete store: one five-character L2 insight blob, nothing else. -/
def stHello : MemoryStore := { insightFiles := ["hello"], digests := [], rawFiles := [] }

/-- Concrete store: empty L2, one 600-character digest owned by agent
`"b"`, one raw file. -/
def stOneDigest : MemoryStore :=
  { insightFiles := [], digests := [("b", dBig)], rawFiles := ["r1"] }

/-- Concrete profile: a default (non-custom) agent. -/
def pDefault : AgentProfile := { id := 0, display_name := "Explorer", is_custom := false }

/-- Concrete AI-teams page state holding only the default profile. -/
def sTeams : TeamsState :=
  { profiles := [pDefault], selectedProfile := some pDefault, error := none }

/- # Theorems -/

/- ## Helper lemmas about the retriever -/

/-- With a budget already below 1000, the digest loop adds nothing. -/
theorem addDigests_lt (b : Int) (hb : b < 1000) (ds : List String) :
    addDigests b ds = ([], b) := by
  cases ds <;> simp [addDigests, hb]

theorem sumTokens_nil : sumTokens [] = 0 := rfl

theorem sumTokens_cons (d : String) (l : List String) :
    sumTokens (d :: l) = count_tokens d + sumTokens l := by
  simp [sumTokens]

theorem sumTokens_append (a b : List String) :
    sumTokens (a ++ b) = sumTokens a + sumTokens b := by
  simp [sumTokens]

theorem sumTokens_nonneg (l : List String) : 0 ≤ sumTokens l := by
  induction l with
  | nil => simp [sumTokens]
  | cons d t ih =>
    rw [sumTokens_cons]
    have : (0 : Int) ≤ count_tokens d := Int.ofNat_nonneg _
    omega

/-- The remaining budget after the digest loop is the initial budget minus
the tokens of the digests it added. -/
theorem addDigests_budget (b : Int) (ds : List String) :
    (addDigests b ds).2 = b - sumTokens (addDigests b ds).1 := by
  induction ds generalizing b with
  | nil => simp [addDigests, sumTokens]
  | cons d rest ih =>
    by_cases hb : b < 1000
    · simp [addDigests, hb, sumTokens]
    · simp only [addDigests, hb, if_false, sumTokens_cons]
      rw [ih]
      ring

/-- The digest loop adds an initial segment of the ranked digest list. -/
theorem addDigests_initial (b : Int) (ds : List String) :
    (addDigests b ds).1 <+: ds := by
  induction ds generalizing b with
  | nil => simp [addDigests]
  | cons d rest ih =>
    by_cases hb : b < 1000
    · simp [addDigests, hb]
    · simp only [addDigests, hb, if_false]
      exact (List.prefix_cons_inj d).2 (ih (b - count_tokens d))

/-- A larger budget makes the digest loop add an extension of what a
smaller budget adds. -/
theorem addDigests_mono (ds : List String) (b1 b2 : Int) (h : b1 ≤ b2) :
    (addDigests b1 ds).1 <+: (addDigests b2 ds).1 := by
  induction ds generalizing b1 b2 with
  | nil => simp [addDigests]
  | cons d rest ih =>
    by_cases h1 : b1 < 1000
    · simp [addDigests, h1]
    · have h2 : ¬ b2 < 1000 := by omega
      simp only [addDigests, h1, h2, if_false]
      exact (List.prefix_cons_inj d).2
        (ih (b1 - count_tokens d) (b2 - count_tokens d) (by omega))

/-- Every digest the loop adds is added while at least 1000 tokens of
budget remain. -/
theorem addDigests_admissible (b : Int) (ds : List String) :
    ∀ i < (addDigests b ds).1.length,
      1000 ≤ b - sumTokens ((addDigests b ds).1.take i) := by
  induction ds generalizing b with
  | nil => simp [addDigests]
  | cons d rest ih =>
    by_cases hb : b < 1000
    · simp [addDigests, hb]
    · simp only [addDigests, hb, if_false]
      intro i hi
      cases i with
      | zero => simp [sumTokens]; omega
      | succ j =>
        simp only [List.length_cons, Nat.succ_lt_succ_iff] at hi
        have := ih (b - count_tokens d) j hi
        simp only [List.take_succ_cons, sumTokens_cons]
        omega

theorem sumTokens_mono {a b : List String} (h : a <+: b) :
    sumTokens a ≤ sumTokens b := by
  obtain ⟨t, rfl⟩ := h
  rw [sumTokens_append]
  have := sumTokens_nonneg t
  omega

/-- Everything `search_digests` returns is the digest of some agent other
than the requesting one. -/
theorem search_digests_sound (score : String → String → Nat)
    (st : MemoryStore) (query agent : String) :
    ∀ s ∈ search_digests score st query agent,
      s ∈ (st.digests.filter fun p => p.1 ≠ agent).map Prod.snd := by
  intro s hs
  unfold search_digests at hs
  have hs' := List.take_subset _ _ hs
  exact ((List.perm_insertionSort _ _).mem_iff).1 hs'

/-- The first bundle entry is always the full L2 insight blob. -/
theorem retrieve_head (rk : Ranking) (st : MemoryStore)
    (query agent : String) (M : Nat) :
    (retrieve_context rk st query agent M).results.head? =
      some (.insights (load_insights st)) := by
  unfold retrieve_context
  by_cases h : 500 <
      (addDigests ((M : Int) - count_tokens (load_insights st))
        (search_digests rk.score st query agent)).2 <;>
    simp [h]

/-- The digest contents of a bundle are exactly what the digest loop
added. -/
theorem digestEntries_retrieve (rk : Ranking) (st : MemoryStore)
    (query agent : String) (M : Nat) :
    digestEntries (retrieve_context rk st query agent M) =
      (addDigests ((M : Int) - count_tokens (load_insights st))
        (search_digests rk.score st query agent)).1 := by
  unfold retrieve_context digestEntries
  by_cases h : 500 <
      (addDigests ((M : Int) - count_tokens (load_insights st))
        (search_digests rk.score st query agent)).2 <;>
    simp only [h, if_true, if_false, List.filterMap_append, List.filterMap_map,
      List.filterMap_cons, List.filterMap_nil, List.append_nil] <;>
    exact List.filterMap_some _

/-- The reported token count is the insight blob's count plus the tokens
of the digests that were added. -/
theorem retrieve_token_count (rk : Ranking) (st : MemoryStore)
    (query agent : String) (M : Nat) :
    (retrieve_context rk st query agent M).token_count =
      count_tokens (load_insights st) +
        sumTokens (addDigests ((M : Int) - count_tokens (load_insights st))
          (search_digests rk.score st query agent)).1 := by
  unfold retrieve_context
  simp only []
  rw [addDigests_budget]
  ring

/- ## C6 — Archivist full summarization is idempotent -/

/-- C6: the Archivist's full-summarization pass reads only the L1 digests
and replaces the L2 insight files; with no new L0 writes in between (the
composition below), running it twice produces a store — in particular L2
content — byte-identical to running it once. -/
theorem generate_insights_idempotent
    (synth : List (String × String) → List String) (st : MemoryStore) :
    generate_insights synth (generate_insights synth st) =
      generate_insights synth st := rfl

/- ## C9 — only custom agent profiles can be deleted -/

/-- C9: `handleDeleteProfile` rejects a non-custom profile with the error
`"Cannot delete default agents"`, leaving the profile list (and the whole
state but the error message) unchanged; conversely, whenever the profile
list changes at all, the deleted profile was custom. -/
theorem handleDeleteProfile_custom_only (s : TeamsState) (p : AgentProfile)
    (confirmed : Bool) (apiError : Option String) :
    (p.is_custom = false →
      handleDeleteProfile s p confirmed apiError =
        { s with error := some ("Cannot delete default agents") }) ∧
    ((handleDeleteProfile s p confirmed apiError).profiles ≠ s.profiles →
      p.is_custom = true) := by
  constructor
  · intro hc
    simp [handleDeleteProfile, hc]
  · intro hchange
    by_contra hc
    simp only [Bool.not_eq_true] at hc
    simp [handleDeleteProfile, hc] at hchange

/-- Witness for C9: deleting the default Explorer profile from the
concrete page state is rejected and leaves the profile list unchanged. -/
theorem handleDeleteProfile_custom_only_witness :
    handleDeleteProfile sTeams pDefault true none =
      { sTeams with error := some ("Cannot delete default agents") } :=
  (handleDeleteProfile_custom_only sTeams pDefault true none).1 rfl

/- ## C10 — SSE line dispatch in executeResearch -/

/-- Counterexample for C10 as stated: the line `"data: null"` begins with
`"data: "` and its payload parses successfully (to JSON `null`) with no
truthy `error` field, so the claim predicts exactly one `onEvent`
invocation; the code invokes neither callback, because the `data.error`
access throws on `null` inside the same `try`/`catch` that swallows parse
failures. -/
theorem executeResearch_null_line_counterexample :
    ("data: null").take 6 = "data: " ∧
    jsonParseModel (("data: null").drop 6) = some Json.null ∧
    processLines jsonParseModel ["data: null"] = [] := by
  refine ⟨rfl, rfl, rfl⟩

/-- C10 amended: the callbacks performed by the SSE loop of
`researchApi.executeResearch` are exactly, and in stream order, those the
amended claim assigns per line — non-data lines and unparsable payloads
produce nothing, a payload parsing to JSON `null` also produces nothing,
a truthy top-level `error` field produces exactly one `onError` and never
`onEvent`, and every other successfully parsed data line produces exactly
one `onEvent`. -/
theorem executeResearch_line_dispatch (parse : String → Option Json)
    (lines : List String) :
    processLines parse lines = lines.filterMap (claimLineBehavior parse) := by
  have hpt : handleLine parse = claimLineBehavior parse := by
    funext l
    unfold handleLine claimLineBehavior
    by_cases h : l.take 6 = "data: "
    · rw [if_pos h, if_pos h]
      cases hp : parse (l.drop 6) with
      | none => rfl
      | some data =>
        cases data with
        | null => rfl
        | bool b => rfl
        | num n => rfl
        | str s => rfl
        | arr xs => rfl
        | obj fields =>
          cases hl : fields.lookup ("error") <;>
            simp [errorAccess, topError, hl]
    · rw [if_neg h, if_neg h]
  rw [processLines, hpt]

/- ## C2 — retrieval bundle order and budget policy -/

/-- Counterexample for C2 as stated: the claim allows truncation of the
L2 insights exactly when they alone exceed the budget — read with the
repository-wide budget invariant, the returned content then fits the
budget. With budget 3 and a five-token insight blob the code returns the
blob whole: nothing is ever truncated, and the reported token count
exceeds the budget. -/
theorem retrieve_no_truncation_counterexample :
    3 < count_tokens (load_insights stHello) ∧
    (retrieve_context rkTrivial stHello ("q") ("a") 3).results =
      [.insights "hello"] ∧
    3 < (retrieve_context rkTrivial stHello ("q") ("a") 3).token_count := by
  refine ⟨by decide, rfl, by decide⟩

/-- C2 amended: the bundle is ordered as the claim says — the L2 insight
blob first (included unconditionally, but never truncated, even when it
alone exceeds the budget), then L1 digests taken in ranked order from the
list that excludes the requesting agent's own digest, each added only
while at least 1000 tokens of budget remain, then — only if more than 500
tokens of budget remain after the digests — a single trailing entry of L0
file references drawn from the store's raw paths (at most three, paths
only, never content). -/
theorem retrieve_bundle_order (rk : Ranking) (st : MemoryStore)
    (query agent : String) (M : Nat) :
    ∃ ds : List String,
      (retrieve_context rk st query agent M).results =
        .insights (load_insights st) :: ds.map .digest ++
          (if 500 < ((M : Int) - count_tokens (load_insights st)) - sumTokens ds
           then [.refs (search_raw rk st query)] else []) ∧
      ds <+: search_digests rk.score st query agent ∧
      (∀ s ∈ ds, s ∈ (st.digests.filter fun p => p.1 ≠ agent).map Prod.snd) ∧
      (∀ i < ds.length,
        1000 ≤ ((M : Int) - count_tokens (load_insights st)) - sumTokens (ds.take i)) ∧
      (∀ path ∈ search_raw rk st query, path ∈ st.rawFiles) ∧
      (search_raw rk st query).length ≤ 3 := by
  refine ⟨(addDigests ((M : Int) - count_tokens (load_insights st))
      (search_digests rk.score st query agent)).1, ?_, ?_, ?_, ?_, ?_, ?_⟩
  · rw [← addDigests_budget]
    unfold retrieve_context
    by_cases h : 500 <
        (addDigests ((M : Int) - count_tokens (load_insights st))
          (search_digests rk.score st query agent)).2 <;>
      simp [h]
  · exact addDigests_initial _ _
  · intro s hs
    exact search_digests_sound rk.score st query agent s
      ((addDigests_initial _ _).subset hs)
  · exact addDigests_admissible _ _
  · intro path hp
    exact List.mem_of_mem_filter (List.take_subset _ _ hp)
  · exact le_trans (List.length_take_le _ _) (le_refl 3)

/- ## C3 — budget monotonicity of retrieval -/

set_option maxRecDepth 4000 in
/-- Counterexample for C3 as stated: with an empty L2 layer, one
600-token digest and one matching raw file, the 900-token retrieval
returns the raw-reference entry while the 1000-token retrieval does not
(the digest it affords eats the budget below the 500-token threshold for
references), so the smaller-budget bundle is not contained in the
larger-budget one. -/
theorem retrieve_monotone_counterexample :
    (retrieve_context rkTrivial stOneDigest ("q") ("a") 900).results =
      [.insights "", .refs ["r1"]] ∧
    (retrieve_context rkTrivial stOneDigest ("q") ("a") 1000).results =
      [.insights "", .digest dBig] ∧
    ¬ List.Sublist (retrieve_context rkTrivial stOneDigest ("q") ("a") 900).results
        (retrieve_context rkTrivial stOneDigest ("q") ("a") 1000).results := by
  refine ⟨rfl, rfl, ?_⟩
  intro h
  have hm : MemEntry.refs ["r1"] ∈
      (retrieve_context rkTrivial stOneDigest ("q") ("a") 1000).results :=
    h.subset (List.mem_cons_of_mem _ (List.mem_cons_self _ _))
  revert hm
  rw [show (retrieve_context rkTrivial stOneDigest ("q") ("a") 1000).results =
    [.insights "", .digest dBig] from rfl]
  simp

/-- C3 amended: with store state, ranking, query and agent fixed and
budgets `B1 ≤ B2`, the insight blob returned is identical, the digest
sequence under `B1` is a prefix of the digest sequence under `B2`, and
the reported token count never decreases with the budget. (Full
bundle-containment fails only through the trailing L0-reference entry,
which a smaller budget can include when a larger one does not.) -/
theorem retrieve_budget_monotone (rk : Ranking) (st : MemoryStore)
    (query agent : String) (B1 B2 : Nat) (h : B1 ≤ B2) :
    (retrieve_context rk st query agent B1).results.head? =
      some (.insights (load_insights st)) ∧
    (retrieve_context rk st query agent B2).results.head? =
      some (.insights (load_insights st)) ∧
    digestEntries (retrieve_context rk st query agent B1) <+:
      digestEntries (retrieve_context rk st query agent B2) ∧
    (retrieve_context rk st query agent B1).token_count ≤
      (retrieve_context rk st query agent B2).token_count := by
  have hb : ((B1 : Int) - count_tokens (load_insights st)) ≤
      ((B2 : Int) - count_tokens (load_insights st)) := by omega
  have hpre := addDigests_mono (search_digests rk.score st query agent) _ _ hb
  refine ⟨retrieve_head rk st query agent B1, retrieve_head rk st query agent B2, ?_, ?_⟩
  · rw [digestEntries_retrieve, digestEntries_retrieve]
    exact hpre
  · rw [retrieve_token_count, retrieve_token_count]
    have := sumTokens_mono hpre
    omega

/-- Witness for C3 amended, at budgets 900 ≤ 1000 on the concrete
one-digest store. -/
theorem retrieve_budget_monotone_witness :
    digestEntries (retrieve_context rkTrivial stOneDigest ("q") ("a") 900) <+:
      digestEntries (retrieve_context rkTrivial stOneDigest ("q") ("a") 1000) :=
  (retrieve_budget_monotone rkTrivial stOneDigest ("q") ("a") 900 1000
    (by norm_num)).2.2.1

/- ## C8 — retrieval with a zero token budget -/

/-- Counterexample for C8 as stated: with a 0-token budget and a
five-character L2 insight blob (which therefore does not fit the budget),
the claim predicts an empty bundle; the code returns the full, untruncated
insight blob. -/
theorem retrieve_zero_budget_counterexample :
    count_tokens (load_insights stHello) = 5 ∧
    (retrieve_context rkTrivial stHello ("q") ("a") 0).results =
      [.insights "hello"] := by
  refine ⟨rfl, rfl⟩

/-- C8 amended: a retrieve call with a token budget of 0 always returns
exactly the L2 insight blob — in full, even when it alone exceeds the
budget — with no digests and no L0 references, and (being a total
function) raises no error; its token count is the insight blob's count. -/
theorem retrieve_zero_budget (rk : Ranking) (st : MemoryStore)
    (query agent : String) :
    (retrieve_context rk st query agent 0).results =
      [.insights (load_insights st)] ∧
    (retrieve_context rk st query agent 0).token_count =
      count_tokens (load_insights st) := by
  have hc : (0 : Int) ≤ (count_tokens (load_insights st) : Int) := Int.ofNat_nonneg _
  have hb : -(count_tokens (load_insights st) : Int) < 1000 := by omega
  have h5 : ¬ (500 < -(count_tokens (load_insights st) : Int)) := by omega
  constructor <;>
    simp [retrieve_context, addDigests_lt _ hb, h5]

/- ## C1 — decomposer task-graph invariants -/

/-- Every member of a list of naturals is bounded by its max-fold. -/
theorem le_foldr_max {x : Nat} : ∀ {l : List Nat}, x ∈ l → x ≤ l.foldr max 0 := by
  intro l h
  induction l with
  | nil => simp at h
  | cons a t ih =>
    rcases List.mem_cons.1 h with rfl | hmem
    · exact le_max_left _ _
    · exact le_trans (ih hmem) (le_max_right _ _)

/-- Group assignment, relative to an accumulator of already-assigned
groups: the result extends the accumulator, a dependency-free task gets
group 0, and a task's group strictly exceeds the group of each of its
(earlier) dependencies. -/
theorem assignGroupsAux_spec (g : List (List Nat)) : ∀ acc : List Nat,
    (assignGroupsAux acc g).length = acc.length + g.length ∧
    (∀ j < acc.length, (assignGroupsAux acc g).getD j 0 = acc.getD j 0) ∧
    (∀ i < g.length,
      (g.getD i [] = [] → (assignGroupsAux acc g).getD (acc.length + i) 0 = 0) ∧
      (∀ j ∈ g.getD i [], j < acc.length + i →
        (assignGroupsAux acc g).getD j 0 <
          (assignGroupsAux acc g).getD (acc.length + i) 0)) := by
  induction g with
  | nil =>
    intro acc
    refine ⟨by simp [assignGroupsAux], fun j _ => rfl, fun i hi => by simp at hi⟩
  | cons deps rest ih =>
    intro acc
    obtain ⟨ihl, ihb, ihc⟩ := ih (acc ++ [groupOf acc deps])
    have hstep : assignGroupsAux acc (deps :: rest) =
        assignGroupsAux (acc ++ [groupOf acc deps]) rest := rfl
    have hb : ∀ j < acc.length,
        (assignGroupsAux acc (deps :: rest)).getD j 0 = acc.getD j 0 := by
      intro j hj
      rw [hstep, ihb j (by simp; omega), List.getD_append _ _ _ _ hj]
    have hself : (assignGroupsAux acc (deps :: rest)).getD acc.length 0 =
        groupOf acc deps := by
      rw [hstep, ihb acc.length (by simp),
        List.getD_append_right _ _ _ _ (le_refl _)]
      simp
    refine ⟨?_, hb, ?_⟩
    · rw [hstep, ihl]
      simp
      omega
    · intro i hi
      cases i with
      | zero =>
        constructor
        · intro hdeps
          rw [Nat.add_zero, hself]
          simp only [List.getD_cons_zero] at hdeps
          simp [groupOf, hdeps]
        · intro j hjmem hjlt
          rw [Nat.add_zero] at hjlt ⊢
          simp only [List.getD_cons_zero] at hjmem
          rw [hself, hb j hjlt]
          have hle : acc.getD j 0 ≤ (deps.map fun j => acc.getD j 0).foldr max 0 :=
            le_foldr_max (List.mem_map_of_mem _ hjmem)
          have hne : deps ≠ [] := by
            intro h
            rw [h] at hjmem
            simp at hjmem
          cases deps with
          | nil => exact absurd rfl hne
          | cons d t =>
            show acc.getD j 0 < ((d :: t).map fun j => acc.getD j 0).foldr max 0 + 1
            omega
      | succ k =>
        have hk : k < rest.length := by
          simp only [List.length_cons] at hi
          omega
        obtain ⟨hc1, hc2⟩ := ihc k hk
        have hidx : acc.length + (k + 1) = (acc ++ [groupOf acc deps]).length + k := by
          simp
          omega
        constructor
        · intro hdeps
          simp only [List.getD_cons_succ] at hdeps
          rw [hstep, hidx]
          exact hc1 hdeps
        · intro j hjmem hjlt
          simp only [List.getD_cons_succ] at hjmem
          rw [hstep, hidx]
          exact hc2 j hjmem (by simp; omega)

/-- C1: for every well-formed task graph produced by the (spec-modelled)
Decomposer, the group numbering satisfies the invariants — a
dependency-free task sits in group 0, every task's group strictly exceeds
each (hence the maximum) of its dependencies' groups, the dependency
relation is acyclic, and two tasks connected by a dependency edge never
share a group. -/
theorem decomposer_graph_invariants (g : TaskGraph) (hwf : g.WF) :
    (∀ i, g.getD i [] = [] → (assignGroups g).getD i 0 = 0) ∧
    (∀ i j, depends g i j →
      (assignGroups g).getD j 0 < (assignGroups g).getD i 0) ∧
    (∀ i, ¬ Relation.TransGen (depends g) i i) ∧
    (∀ i j, depends g i j →
      (assignGroups g).getD i 0 ≠ (assignGroups g).getD j 0) := by
  obtain ⟨hl, _, hc⟩ := assignGroupsAux_spec g []
  have hlen : (assignGroups g).length = g.length := by
    rw [assignGroups, hl]
    simp
  have hgrow : ∀ i j, depends g i j →
      (assignGroups g).getD j 0 < (assignGroups g).getD i 0 := by
    intro i j hdep
    by_cases hi : i < g.length
    · have := (hc i hi).2 j hdep (by have := hwf i j hdep; omega)
      simpa [assignGroups] using this
    · exfalso
      rw [depends, List.getD_eq_default _ _ (by omega)] at hdep
      simp at hdep
  refine ⟨?_, hgrow, ?_, ?_⟩
  · intro i hdeps
    by_cases hi : i < g.length
    · have := (hc i hi).1 hdeps
      simpa [assignGroups] using this
    · exact List.getD_eq_default _ _ (by omega)
  · intro i hTG
    have hsub : ∀ a b, depends g a b → b < a := fun a b hab => hwf a b hab
    have htrans : Transitive fun a b : Nat => b < a :=
      fun _ _ _ hxy hyz => lt_trans hyz hxy
    have h2 := Relation.TransGen.mono hsub hTG
    rw [Relation.transGen_eq_self htrans] at h2
    omega
  · intro i j hdep
    exact (hgrow i j hdep).ne'

/-- Witness for C1 at the spec's example scenario shape: three tasks, the
second and third depending on the first; the first task's group is
strictly below the second's. -/
theorem decomposer_graph_invariants_witness :
    (assignGroups [[], [0], [0]]).getD 0 0 <
      (assignGroups [[], [0], [0]]).getD 1 0 := by
  have hwf : TaskGraph.WF [[], [0], [0]] := by
    intro i j hj
    match i with
    | 0 => simp at hj
    | 1 =>
      simp at hj
      omega
    | 2 =>
      simp at hj
      omega
    | n + 3 =>
      rw [List.getD_eq_default _ _ (by simp)] at hj
      simp at hj
  exact (decomposer_graph_invariants [[], [0], [0]] hwf).2.1 1 0 (by simp [depends])

/- ## C7 — partial task failure does not abort the session -/

/-- The group loop processes every task: the successes are exactly the
tasks with an output, the failures exactly the rest, both in task order. -/
theorem processTasks_spec (tasks : List TaskRun) :
    (processTasks tasks).1 =
      (tasks.filterMap fun t => t.output.map fun o => (t.id, o)) ∧
    (processTasks tasks).2 =
      ((tasks.filter fun t => t.output.isNone).map TaskRun.id) := by
  induction tasks with
  | nil => exact ⟨rfl, rfl⟩
  | cons t rest ih =>
    cases ht : t.output <;>
      simp [processTasks, ht, ih.1, ih.2]

/-- C7: a failed task never aborts its (spec-modelled) session run — the
session still reaches `completed`, every remaining task is still
processed (the failures are recorded, the successes all contribute), and
the synthesis produced is non-empty and references exactly the successful
tasks. -/
theorem session_partial_failure (tasks : List TaskRun) :
    (runSession tasks).status = .completed ∧
    (runSession tasks).synthesis.text ≠ "" ∧
    (runSession tasks).synthesis.sources =
      (tasks.filterMap fun t => t.output.map fun _ => t.id) ∧
    (runSession tasks).failedTasks =
      ((tasks.filter fun t => t.output.isNone).map TaskRun.id) := by
  refine ⟨rfl, ?_, ?_, ?_⟩
  · intro h
    rw [show (runSession tasks).synthesis.text = "## Synthesis Report\n" ++
        String.join ((processTasks tasks).1.map fun p => "- [task] " ++ p.2 ++ "\n")
      from rfl] at h
    have hlen := congrArg String.length h
    rw [String.length_append] at hlen
    simp at hlen
    exact absurd hlen.1 (by decide)
  · show ((processTasks tasks).1.map Prod.fst) = _
    rw [(processTasks_spec tasks).1, List.map_filterMap]
    simp only [Option.map_map]
    rfl
  · exact (processTasks_spec tasks).2

/- ## C5 — the inter-group barrier -/

/-- An in-range `getD` is a member of the list. -/
theorem getD_mem {α : Type} {l : List α} {k : Nat} (d : α)
    (h : k < l.length) : l.getD k d ∈ l := by
  rw [List.getD_eq_getElem l d h]
  exact List.getElem_mem h

/-- Invariant of the (spec-modelled) Orchestrator trace, relative to a
start state in which every task of the remaining groups is pending: tasks
outside the remaining groups never change, and inside the remaining
groups a task of group `k+1` leaves `pending` only after every task of
group `k` is terminal. -/
theorem runTrace_inv (outcome : Nat → TaskStatus)
    (hterm : ∀ t, (outcome t).isTerminal = true) :
    ∀ (gs : List (List Nat)) (s : Nat → TaskStatus),
      GroupsDisjoint gs →
      (∀ g ∈ gs, ∀ x ∈ g, s x = .pending) →
      ∀ σ ∈ runTrace outcome s gs,
        (∀ x, (∀ g ∈ gs, x ∉ g) → σ x = s x) ∧
        (∀ k, k + 1 < gs.length →
          ∀ t ∈ gs.getD (k + 1) [], ∀ u ∈ gs.getD k [],
            σ t ≠ .pending → (σ u).isTerminal = true) := by
  intro gs
  induction gs with
  | nil =>
    intro s _ _ σ hσ
    simp only [runTrace, List.mem_singleton] at hσ
    subst hσ
    exact ⟨fun _ _ => rfl, fun k hk => by simp at hk⟩
  | cons g rest ih =>
    intro s hdisj hpend σ hσ
    rw [GroupsDisjoint, List.pairwise_cons] at hdisj
    obtain ⟨hdg, hdrest⟩ := hdisj
    simp only [runTrace, List.mem_cons] at hσ
    have hs2out : ∀ x, x ∉ g →
        setGroup (setGroup s g fun _ => .in_progress) g outcome x = s x := by
      intro x hx
      simp [setGroup, hx]
    have hpend2 : ∀ g' ∈ rest, ∀ x ∈ g',
        setGroup (setGroup s g fun _ => .in_progress) g outcome x = .pending := by
      intro g' hg' x hx
      have hxg : x ∉ g := fun hxg => hdg g' hg' x hxg hx
      rw [hs2out x hxg]
      exact hpend g' (List.mem_cons_of_mem _ hg') x hx
    rcases hσ with hσ | hσ | hσmem
    · subst hσ
      refine ⟨fun _ _ => rfl, ?_⟩
      intro k hk t ht u hu hne
      exfalso
      rw [List.getD_cons_succ] at ht
      have hkr : k < rest.length := by
        simp only [List.length_cons] at hk
        omega
      exact hne (hpend _ (List.mem_cons_of_mem _ (getD_mem [] hkr)) t ht)
    · subst hσ
      constructor
      · intro x hxall
        have hxg : x ∉ g := hxall g (List.mem_cons_self _ _)
        simp [setGroup, hxg]
      · intro k hk t ht u hu hne
        exfalso
        rw [List.getD_cons_succ] at ht
        have hkr : k < rest.length := by
          simp only [List.length_cons] at hk
          omega
        have hmem : rest.getD k [] ∈ rest := getD_mem [] hkr
        have htg : t ∉ g := fun htg => hdg _ hmem t htg ht
        have hpendt : s t = .pending :=
          hpend _ (List.mem_cons_of_mem _ hmem) t ht
        have : setGroup s g (fun _ => TaskStatus.in_progress) t = s t := by
          simp [setGroup, htg]
        exact hne (this.trans hpendt)
    · obtain ⟨ihout, ihbar⟩ := ih _ hdrest hpend2 σ hσmem
      constructor
      · intro x hxall
        have hxg : x ∉ g := hxall g (List.mem_cons_self _ _)
        rw [ihout x (fun g' hg' => hxall g' (List.mem_cons_of_mem _ hg')),
          hs2out x hxg]
      · intro k hk t ht u hu hne
        cases k with
        | zero =>
          rw [List.getD_cons_zero] at hu
          have huout : ∀ g' ∈ rest, u ∉ g' := fun g' hg' hu' => hdg g' hg' u hu hu'
          rw [ihout u huout]
          have : setGroup (setGroup s g fun _ => .in_progress) g outcome u =
              outcome u := by
            simp [setGroup, hu]
          rw [this]
          exact hterm u
        | succ j =>
          rw [List.getD_cons_succ] at ht hu
          refine ihbar j ?_ t ht u hu hne
          simp only [List.length_cons] at hk
          omega

/-- C5: in the (spec-modelled) Orchestrator run, execution groups are
strictly sequential — at no point of the trace has a task of group `k+1`
left `pending` unless every task of group `k` has reached a terminal
status. -/
theorem orchestrator_group_barrier (gs : List (List Nat))
    (outcome : Nat → TaskStatus)
    (hterm : ∀ t, (outcome t).isTerminal = true)
    (hdisj : GroupsDisjoint gs)
    (k t u : Nat) (hk : k + 1 < gs.length)
    (ht : t ∈ gs.getD (k + 1) []) (hu : u ∈ gs.getD k [])
    (σ : Nat → TaskStatus)
    (hσ : σ ∈ runTrace outcome (fun _ => .pending) gs)
    (hne : σ t ≠ .pending) :
    (σ u).isTerminal = true :=
  (runTrace_inv outcome hterm gs _ hdisj (fun _ _ _ _ => rfl) σ hσ).2
    k hk t ht u hu hne

/-- Witness for C5: two groups `[0]` then `[1, 2]`, everything completing;
at the trace state that has just dispatched the second group, task 1 is no
longer pending and task 0 of the first group is terminal. -/
theorem orchestrator_group_barrier_witness :
    ((setGroup (setGroup (setGroup (fun _ => TaskStatus.pending) [0]
        fun _ => TaskStatus.in_progress) [0] fun _ => TaskStatus.completed)
        [1, 2] fun _ => TaskStatus.in_progress) 0).isTerminal = true := by
  refine orchestrator_group_barrier [[0], [1, 2]] (fun _ => .completed)
    (fun _ => rfl) ?_ 0 1 0 (by decide) (by decide) (by decide) _ ?_ (by decide)
  · show List.Pairwise (fun a b => ∀ x ∈ a, x ∉ b) [[0], [1, 2]]
    refine List.Pairwise.cons ?_ (List.Pairwise.cons (by simp) List.Pairwise.nil)
    intro b hb x hx
    simp only [List.mem_singleton] at hb hx
    subst hb
    subst hx
    decide
  · exact List.mem_cons_of_mem _ (List.mem_cons_of_mem _
      (List.mem_cons_of_mem _ (List.mem_cons_self _ _)))

/- ## C4 — per-session event ordering -/

/-- Counting across a flat-mapped list is the sum of the per-piece
counts. -/
theorem count_flatMap {α β : Type} [DecidableEq β] (f : α → List β) (b : β) :
    ∀ l : List α, ((l.flatMap f).count b) = (l.map fun a => (f a).count b).sum := by
  intro l
  induction l with
  | nil => rfl
  | cons a s ih => simp [List.flatMap_cons, List.count_append, ih]

/-- Counting in a flattened list of lists is the sum of the per-list
counts. -/
theorem count_flatten {β : Type} [DecidableEq β] (b : β) :
    ∀ l : List (List β), l.flatten.count b = (l.map fun a => a.count b).sum := by
  intro l
  induction l with
  | nil => rfl
  | cons a s ih => simp [List.flatten_cons, List.count_append, ih]

/-- Summing the indicator of equality with `t` counts `t`. -/
theorem sum_indicator_count (t : Nat) :
    ∀ g : List Nat, (g.map fun u => if u = t then 1 else 0).sum = g.count t := by
  intro g
  induction g with
  | nil => rfl
  | cons a s ih =>
    rw [List.map_cons, List.sum_cons, ih, List.count_cons]
    by_cases h : a = t <;> simp [h]
    omega

theorem count_taskEvents_started (outcome : Nat → Bool) (u t : Nat) :
    (taskEvents outcome u).count (.task_started t) = if u = t then 1 else 0 := by
  by_cases h : u = t
  · subst h
    cases ho : outcome u <;>
      simp [taskEvents, terminalEvent, ho, List.count_cons]
  · cases ho : outcome u <;>
      simp [taskEvents, terminalEvent, ho, List.count_cons, h, Ne.symm h]

theorem count_taskEvents_completed (outcome : Nat → Bool) (u t : Nat) :
    (taskEvents outcome u).count (.task_completed t) =
      if u = t ∧ outcome t = true then 1 else 0 := by
  by_cases h : u = t
  · subst h
    cases ho : outcome u <;>
      simp [taskEvents, terminalEvent, ho, List.count_cons]
  · cases ho : outcome u <;>
      simp [taskEvents, terminalEvent, ho, List.count_cons, h, Ne.symm h]

theorem count_taskEvents_failed (outcome : Nat → Bool) (u t : Nat) :
    (taskEvents outcome u).count (.task_failed t) =
      if u = t ∧ outcome t = false then 1 else 0 := by
  by_cases h : u = t
  · subst h
    cases ho : outcome u <;>
      simp [taskEvents, terminalEvent, ho, List.count_cons]
  · cases ho : outcome u <;>
      simp [taskEvents, terminalEvent, ho, List.count_cons, h, Ne.symm h]

theorem count_groupEvents_started (outcome : Nat → Bool) (t : Nat)
    (g : List Nat) :
    (groupEvents outcome g).count (.task_started t) = g.count t := by
  rw [groupEvents]
  simp only [List.count_cons, List.count_append, count_flatMap]
  have heq : (g.map fun u => (taskEvents outcome u).count (.task_started t)).sum =
      (g.map fun u => if u = t then 1 else 0).sum := by
    congr 1
    exact List.map_congr_left (fun u _ => count_taskEvents_started outcome u t)
  rw [heq, sum_indicator_count]
  simp

theorem count_groupEvents_completed (outcome : Nat → Bool) (t : Nat)
    (g : List Nat) :
    (groupEvents outcome g).count (.task_completed t) =
      if outcome t = true then g.count t else 0 := by
  rw [groupEvents]
  simp only [List.count_cons, List.count_append, count_flatMap]
  have heq : (g.map fun u => (taskEvents outcome u).count (.task_completed t)).sum =
      (g.map fun u => if u = t ∧ outcome t = true then 1 else 0).sum := by
    congr 1
    exact List.map_congr_left (fun u _ => count_taskEvents_completed outcome u t)
  rw [heq]
  cases ho : outcome t <;> simp [ho, sum_indicator_count]

theorem count_groupEvents_failed (outcome : Nat → Bool) (t : Nat)
    (g : List Nat) :
    (groupEvents outcome g).count (.task_failed t) =
      if outcome t = false then g.count t else 0 := by
  rw [groupEvents]
  simp only [List.count_cons, List.count_append, count_flatMap]
  have heq : (g.map fun u => (taskEvents outcome u).count (.task_failed t)).sum =
      (g.map fun u => if u = t ∧ outcome t = false then 1 else 0).sum := by
    congr 1
    exact List.map_congr_left (fun u _ => count_taskEvents_failed outcome u t)
  rw [heq]
  cases ho : outcome t <;> simp [ho, sum_indicator_count]

/-- No session-level event occurs inside the per-group event blocks. -/
theorem not_mem_group_flatMap (outcome : Nat → Bool) (gs : List (List Nat))
    (e : REvent)
    (h1 : e ≠ .group_started) (h2 : e ≠ .group_completed)
    (h3 : ∀ u, e ≠ .task_started u) (h4 : ∀ u, e ≠ .task_completed u)
    (h5 : ∀ u, e ≠ .task_failed u) :
    e ∉ gs.flatMap (groupEvents outcome) := by
  intro hmem
  rw [List.mem_flatMap] at hmem
  obtain ⟨g, _, hmem⟩ := hmem
  rw [groupEvents] at hmem
  rcases List.mem_cons.1 hmem with he | hmem
  · exact h1 he
  rcases List.mem_append.1 hmem with hmem | hmem
  · rw [List.mem_flatMap] at hmem
    obtain ⟨u, _, hmem⟩ := hmem
    rcases List.mem_cons.1 hmem with he | hmem
    · exact h3 u he
    rw [List.mem_singleton, terminalEvent] at hmem
    cases ho : outcome u <;> rw [ho] at hmem
    · exact h5 u (by simpa using hmem)
    · exact h4 u (by simpa using hmem)
  · exact h2 (List.mem_singleton.1 hmem)

/-- A piece of a flat map is an infix of the whole. -/
theorem infix_of_mem_flatMap {α β : Type} (f : α → List β) {x : α} :
    ∀ {l : List α}, x ∈ l → f x <:+: l.flatMap f := by
  intro l h
  induction l with
  | nil => simp at h
  | cons a s ih =>
    rcases List.mem_cons.1 h with rfl | hmem
    · exact ⟨[], s.flatMap f, by simp⟩
    · obtain ⟨p, q, hpq⟩ := ih hmem
      exact ⟨f a ++ p, q, by rw [List.flatMap_cons, ← hpq]; simp⟩

/-- The two events of a task are an infix of its group's event block. -/
theorem taskEvents_infix_groupEvents (outcome : Nat → Bool) {t : Nat}
    {g : List Nat} (h : t ∈ g) :
    taskEvents outcome t <:+: groupEvents outcome g := by
  obtain ⟨p, q, hpq⟩ := infix_of_mem_flatMap (taskEvents outcome) h
  exact ⟨.group_started :: p, q ++ [.group_completed], by
    rw [groupEvents, ← hpq]; simp⟩

/-- C4: the (spec-modelled) per-session event stream, delivered to every
subscriber in the single order it was produced, is consistent with a valid
execution — `session_started` is the first event, `session_completed` the
last, each occurring exactly once; for a task `t` occurring exactly once
in the groups, `task_started t` occurs exactly once and is followed by
exactly one of `task_completed t`/`task_failed t`; and the api.ts SSE
consumer, fed one well-formed `data: ` line per event, invokes `onEvent`
exactly once per event in production order. -/
theorem orchestrator_event_order (groups : List (List Nat))
    (outcome : Nat → Bool) (t : Nat)
    (h1 : groups.flatten.count t = 1) :
    (orchestratorEvents groups outcome).head? = some .session_started ∧
    (orchestratorEvents groups outcome).getLast? = some .session_completed ∧
    (orchestratorEvents groups outcome).count .session_started = 1 ∧
    (orchestratorEvents groups outcome).count .session_completed = 1 ∧
    (orchestratorEvents groups outcome).count (.task_started t) = 1 ∧
    (orchestratorEvents groups outcome).count (.task_completed t) +
      (orchestratorEvents groups outcome).count (.task_failed t) = 1 ∧
    List.Sublist [.task_started t, terminalEvent outcome t]
      (orchestratorEvents groups outcome) ∧
    (∀ (parse : String → Option Json) (enc : REvent → String)
        (jval : REvent → Json),
      (∀ e ∈ orchestratorEvents groups outcome,
        handleLine parse (enc e) = some (.event (jval e))) →
      processLines parse ((orchestratorEvents groups outcome).map enc) =
        (orchestratorEvents groups outcome).map fun e => SSECall.event (jval e)) := by
  have hF : ∀ e : REvent, e ≠ .group_started → e ≠ .group_completed →
      (∀ u, e ≠ .task_started u) → (∀ u, e ≠ .task_completed u) →
      (∀ u, e ≠ .task_failed u) →
      (groups.flatMap (groupEvents outcome)).count e = 0 := by
    intro e a b c d f
    exact List.count_eq_zero.2 (not_mem_group_flatMap outcome groups e a b c d f)
  have hstart : (groups.flatMap (groupEvents outcome)).count (.task_started t) =
      groups.flatten.count t := by
    rw [count_flatMap, count_flatten]
    congr 1
    exact List.map_congr_left (fun g _ => count_groupEvents_started outcome t g)
  have hcomp : (groups.flatMap (groupEvents outcome)).count (.task_completed t) =
      if outcome t = true then groups.flatten.count t else 0 := by
    rw [count_flatMap]
    have heq : (groups.map fun g =>
        (groupEvents outcome g).count (.task_completed t)).sum =
        (groups.map fun g => if outcome t = true then g.count t else 0).sum := by
      congr 1
      exact List.map_congr_left (fun g _ => count_groupEvents_completed outcome t g)
    rw [heq]
    cases ho : outcome t <;> simp [ho, count_flatten]
  have hfail : (groups.flatMap (groupEvents outcome)).count (.task_failed t) =
      if outcome t = false then groups.flatten.count t else 0 := by
    rw [count_flatMap]
    have heq : (groups.map fun g =>
        (groupEvents outcome g).count (.task_failed t)).sum =
        (groups.map fun g => if outcome t = false then g.count t else 0).sum := by
      congr 1
      exact List.map_congr_left (fun g _ => count_groupEvents_failed outcome t g)
    rw [heq]
    cases ho : outcome t <;> simp [ho, count_flatten]
  refine ⟨rfl, ?_, ?_, ?_, ?_, ?_, ?_, ?_⟩
  · rw [show orchestratorEvents groups outcome =
      (.session_started :: .decomposition_complete ::
        (groups.flatMap (groupEvents outcome) ++
          [.synthesis_started, .synthesis_complete])) ++ [.session_completed] by
        simp [orchestratorEvents]]
    exact List.getLast?_concat _
  · rw [orchestratorEvents]
    simp [List.count_cons, List.count_append,
      hF .session_started (by simp) (by simp) (by simp) (by simp) (by simp)]
  · rw [orchestratorEvents]
    simp [List.count_cons, List.count_append,
      hF .session_completed (by simp) (by simp) (by simp) (by simp) (by simp)]
  · rw [orchestratorEvents]
    simp [List.count_cons, List.count_append, hstart, h1]
  · rw [orchestratorEvents]
    simp only [List.count_cons, List.count_append, hcomp, hfail]
    cases ho : outcome t <;> simp [ho, h1]
  · have hmem : t ∈ groups.flatten := by
      have hpos : 0 < groups.flatten.count t := by omega
      exact List.count_pos_iff.1 hpos
    rw [List.mem_flatten] at hmem
    obtain ⟨g, hg, htg⟩ := hmem
    have h2 : taskEvents outcome t <:+: groupEvents outcome g :=
      taskEvents_infix_groupEvents outcome htg
    have h3 : groupEvents outcome g <:+: groups.flatMap (groupEvents outcome) :=
      infix_of_mem_flatMap (groupEvents outcome) hg
    have h4 : groups.flatMap (groupEvents outcome) <:+:
        orchestratorEvents groups outcome :=
      ⟨[.session_started, .decomposition_complete],
        [.synthesis_started, .synthesis_complete, .session_completed], by
          rw [orchestratorEvents]; simp⟩
    exact (h2.trans (h3.trans h4)).sublist
  · intro parse enc jval hok
    have hgen : ∀ l : List REvent,
        (∀ e ∈ l, handleLine parse (enc e) = some (.event (jval e))) →
        processLines parse (l.map enc) = l.map fun e => SSECall.event (jval e) := by
      intro l
      induction l with
      | nil => intro _; rfl
      | cons a s ih =>
        intro h
        rw [List.map_cons, processLines, List.filterMap_cons,
          h a (List.mem_cons_self _ _), List.map_cons]
        exact congrArg _ (ih fun e he => h e (List.mem_cons_of_mem _ he))
    exact hgen _ hok

/-- Witness for C4 at groups `[[0], [1, 2]]` with every task completing:
task 1 is started exactly once. -/
theorem orchestrator_event_order_witness :
    (orchestratorEvents [[0], [1, 2]] fun _ => true).count (.task_started 1) = 1 :=
  (orchestrator_event_order [[0], [1, 2]] (fun _ => true) 1 (by decide)).2.2.2.2.1
